import Mathlib

/-!
Shallow embedding of the phononic band-gap core of
`sfepy/homogenization/coefs_phononic.py`, together with theorems checking the
natural-language specification against it.

Numbers: the Python code computes with IEEE doubles; the embedding uses exact
rationals (`ℚ`) for the arithmetic the claims are about, except where a claim
is genuinely about IEEE special values (the `isfinite` guard of
`AcousticMassTensor.evaluate`), where a small extended-value model `FV`
(finite / +inf / -inf / nan) of double arithmetic without overflow is used.
-/

namespace Phononic

/-- Machine epsilon of an IEEE double, the value of `nm.finfo(float).eps`
used by `find_zero`. -/
def machEps : ℚ := 1 / 2 ^ 52

/-! ### split_chunks (coefs_phononic.py lines 102-115)

`delta = nm.ediff1d(indx, to_end=2)`, `ir = nm.where(delta > 1)[0]`, then the
loop slices `indx[ic0:ic+1]` between successive cut indices. -/

/-- Embedding of `nm.ediff1d(indx, to_end=2)`: consecutive differences with a
final artificial difference of 2. -/
def ediff1dTo2 (indx : List ℤ) : List ℤ :=
  (List.zipWith (fun a b => b - a) indx indx.tail) ++ [2]

/-- Embedding of `ir = nm.where(delta > 1)[0]`: the ascending list of
positions of `ediff1dTo2 indx` holding a value greater than 1. -/
def cutIndices (indx : List ℤ) : List ℕ :=
  (List.range (ediff1dTo2 indx).length).filter
    (fun i => 1 < (ediff1dTo2 indx).getD i 0)

/-- The chunk-building loop of `split_chunks`: for each cut index `ic` the
slice `indx[ic0:ic+1]` is emitted and `ic0` becomes `ic + 1`. -/
def buildChunks (indx : List ℤ) : ℕ → List ℕ → List (List ℤ)
  | _, [] => []
  | ic0, ic :: ir => ((indx.drop ic0).take (ic + 1 - ic0)) :: buildChunks indx (ic + 1) ir

/-- Embedding of `split_chunks` (lines 102-115). -/
def splitChunks (indx : List ℤ) : List (List ℤ) :=
  if indx = [] then [] else buildChunks indx 0 (cutIndices indx)

example : splitChunks [1, 2, 4, 5, 9] = [[1, 2], [4, 5], [9]] := by decide
example : splitChunks [] = [] := by decide
example : splitChunks [3] = [[3]] := by decide

/-- A nonempty list's `getLastD` does not depend on the default. -/
theorem getLastD_default_irrel (l : List ℤ) (h : l ≠ []) (d d' : ℤ) :
    l.getLastD d = l.getLastD d' := by
  cases l with
  | nil => exact absurd rfl h
  | cons a l => rw [List.getLastD_cons, List.getLastD_cons]

theorem splitChunks_singleton (x : ℤ) : splitChunks [x] = [[x]] := rfl

/-- Shifting every cut index by one and prepending an element leaves the
emitted chunks unchanged. -/
theorem buildChunks_shift (x : ℤ) (xs : List ℤ) (ir : List ℕ) :
    ∀ ic0, buildChunks (x :: xs) (ic0 + 1) (ir.map (· + 1)) = buildChunks xs ic0 ir := by
  induction ir with
  | nil => intro ic0; rfl
  | cons ic ir ih =>
      intro ic0
      simp only [List.map_cons, buildChunks, List.drop_succ_cons, Nat.succ_sub_succ,
        List.cons.injEq, true_and]
      exact ih (ic + 1)

theorem ediff1dTo2_cons_cons (x y : ℤ) (rest : List ℤ) :
    ediff1dTo2 (x :: y :: rest) = (y - x) :: ediff1dTo2 (y :: rest) := rfl

/-- How the cut indices of `x :: y :: rest` arise from those of `y :: rest`. -/
theorem cutIndices_cons_cons (x y : ℤ) (rest : List ℤ) :
    cutIndices (x :: y :: rest)
      = (if 1 < y - x then [0] else []) ++ (cutIndices (y :: rest)).map (· + 1) := by
  unfold cutIndices
  rw [ediff1dTo2_cons_cons]
  rw [show ((y - x) :: ediff1dTo2 (y :: rest)).length = (ediff1dTo2 (y :: rest)).length + 1
    from rfl]
  rw [List.range_succ_eq_map, List.filter_cons]
  have hmap : (List.map Nat.succ (List.range (ediff1dTo2 (y :: rest)).length)).filter
      (fun i => decide (1 < ((y - x) :: ediff1dTo2 (y :: rest)).getD i 0))
      = ((List.range (ediff1dTo2 (y :: rest)).length).filter
          (fun i => decide (1 < (ediff1dTo2 (y :: rest)).getD i 0))).map (· + 1) := by
    rw [List.filter_map]
    have hp : ((fun i => decide (1 < ((y - x) :: ediff1dTo2 (y :: rest)).getD i 0))
        ∘ Nat.succ) = fun i => decide (1 < (ediff1dTo2 (y :: rest)).getD i 0) := by
      funext i
      simp [Function.comp, List.getD_cons_succ]
    rw [hp]
  rw [hmap]
  by_cases h : 1 < y - x
  · simp [h, List.getD_cons_zero]
  · simp [h, List.getD_cons_zero]

/-- `split_chunks` on a two-step cons when the first gap exceeds one. -/
theorem splitChunks_cons_of_gap (x y : ℤ) (rest : List ℤ) (h : 1 < y - x) :
    splitChunks (x :: y :: rest) = [x] :: splitChunks (y :: rest) := by
  unfold splitChunks
  rw [if_neg (by simp : ¬(x :: y :: rest = [])), if_neg (by simp : ¬(y :: rest = []))]
  rw [cutIndices_cons_cons, if_pos h]
  show buildChunks (x :: y :: rest) 0 (0 :: (cutIndices (y :: rest)).map (· + 1))
      = [x] :: buildChunks (y :: rest) 0 (cutIndices (y :: rest))
  simp only [buildChunks, List.cons.injEq]
  refine ⟨rfl, ?_⟩
  exact buildChunks_shift x (y :: rest) (cutIndices (y :: rest)) 0

/-- `split_chunks` on a two-step cons when the first gap is at most one: the
first element joins the first chunk of the tail's chunks. -/
theorem splitChunks_cons_of_close (x y : ℤ) (rest : List ℤ) (h : ¬ 1 < y - x)
    (g : List ℤ) (gs : List (List ℤ)) (hsp : splitChunks (y :: rest) = g :: gs) :
    splitChunks (x :: y :: rest) = (x :: g) :: gs := by
  unfold splitChunks at hsp ⊢
  rw [if_neg (by simp : ¬(y :: rest = []))] at hsp
  rw [if_neg (by simp : ¬(x :: y :: rest = [])), cutIndices_cons_cons, if_neg h]
  cases hcut : cutIndices (y :: rest) with
  | nil => rw [hcut] at hsp; exact absurd hsp.symm (List.cons_ne_nil g gs)
  | cons ic ir =>
      rw [hcut] at hsp
      simp only [buildChunks, List.drop_zero, Nat.sub_zero, List.cons.injEq] at hsp
      simp only [List.map_cons, List.nil_append, buildChunks, List.drop_zero, Nat.sub_zero,
        List.cons.injEq]
      constructor
      · rw [show ic + 1 + 1 = (ic + 1) + 1 from rfl, List.take_succ_cons]
        rw [hsp.1]
      · rw [buildChunks_shift]
        exact hsp.2

/-- Concatenating the chunks of `split_chunks` restores the input. -/
theorem splitChunks_join : ∀ l : List ℤ, (splitChunks l).flatten = l := by
  intro l
  induction l with
  | nil => rfl
  | cons x xs ih =>
      cases xs with
      | nil => rw [splitChunks_singleton]; rfl
      | cons y rest =>
          by_cases h : 1 < y - x
          · rw [splitChunks_cons_of_gap x y rest h]
            simp only [List.flatten_cons, List.singleton_append]
            rw [ih]
          · cases hsp : splitChunks (y :: rest) with
            | nil => rw [hsp] at ih; exact absurd ih.symm (List.cons_ne_nil y rest)
            | cons g gs =>
                rw [splitChunks_cons_of_close x y rest h g gs hsp]
                rw [hsp] at ih
                simp only [List.flatten_cons, List.cons_append] at ih ⊢
                rw [ih]

/-- Every chunk of `split_chunks` is nonempty. -/
theorem splitChunks_ne_nil : ∀ (l : List ℤ), ∀ c ∈ splitChunks l, c ≠ [] := by
  intro l
  induction l with
  | nil => intro c hc; simp [splitChunks] at hc
  | cons x xs ih =>
      cases xs with
      | nil =>
          intro c hc
          rw [splitChunks_singleton] at hc
          simp at hc
          subst hc
          exact List.cons_ne_nil x []
      | cons y rest =>
          intro c hc
          by_cases h : 1 < y - x
          · rw [splitChunks_cons_of_gap x y rest h] at hc
            rcases List.mem_cons.mp hc with h1 | h2
            · subst h1; exact List.cons_ne_nil x []
            · exact ih c h2
          · cases hsp : splitChunks (y :: rest) with
            | nil =>
                have hj := splitChunks_join (y :: rest)
                rw [hsp] at hj
                exact absurd hj.symm (List.cons_ne_nil y rest)
            | cons g gs =>
                rw [splitChunks_cons_of_close x y rest h g gs hsp] at hc
                rcases List.mem_cons.mp hc with h1 | h2
                · subst h1; exact List.cons_ne_nil x g
                · exact ih c (hsp ▸ List.mem_cons_of_mem g h2)

/-- The first chunk of `split_chunks` starts with the input's first element. -/
theorem splitChunks_head (y : ℤ) (rest : List ℤ) (g : List ℤ) (gs : List (List ℤ))
    (hsp : splitChunks (y :: rest) = g :: gs) : ∃ g', g = y :: g' := by
  have hj := splitChunks_join (y :: rest)
  rw [hsp] at hj
  have hg : g ≠ [] := splitChunks_ne_nil (y :: rest) g (hsp ▸ List.mem_cons_self g gs)
  cases g with
  | nil => exact absurd rfl hg
  | cons a g' =>
      simp only [List.flatten_cons, List.cons_append, List.cons.injEq] at hj
      exact ⟨g', by rw [hj.1]⟩

/-- On a strictly increasing input every chunk of `split_chunks` is a run of
consecutive integers. -/
theorem splitChunks_consecutive :
    ∀ l : List ℤ, l.Chain' (· < ·) →
      ∀ c ∈ splitChunks l, c.Chain' (fun a b => b = a + 1) := by
  intro l
  induction l with
  | nil => intro _ c hc; simp [splitChunks] at hc
  | cons x xs ih =>
      cases xs with
      | nil =>
          intro _ c hc
          rw [splitChunks_singleton] at hc
          simp at hc
          subst hc
          exact List.chain'_singleton x
      | cons y rest =>
          intro hl c hc
          rw [List.chain'_cons] at hl
          by_cases h : 1 < y - x
          · rw [splitChunks_cons_of_gap x y rest h] at hc
            rcases List.mem_cons.mp hc with h1 | h2
            · subst h1; exact List.chain'_singleton x
            · exact ih hl.2 c h2
          · cases hsp : splitChunks (y :: rest) with
            | nil =>
                have hj := splitChunks_join (y :: rest)
                rw [hsp] at hj
                exact absurd hj.symm (List.cons_ne_nil y rest)
            | cons g gs =>
                rw [splitChunks_cons_of_close x y rest h g gs hsp] at hc
                rcases List.mem_cons.mp hc with h1 | h2
                · subst h1
                  obtain ⟨g', rfl⟩ := splitChunks_head y rest g gs hsp
                  rw [List.chain'_cons]
                  constructor
                  · omega
                  · exact ih hl.2 (y :: g') (hsp ▸ List.mem_cons_self _ gs)
                · exact ih hl.2 c (hsp ▸ List.mem_cons_of_mem g h2)

/-- On a strictly increasing input, consecutive chunks of `split_chunks` are
separated by a gap: the next chunk starts more than one above where the
previous chunk ends.  Together with `splitChunks_consecutive` this says the
chunks are exactly the maximal runs of consecutive integers. -/
theorem splitChunks_gaps :
    ∀ l : List ℤ, l.Chain' (· < ·) →
      (splitChunks l).Chain' (fun c d => c.getLastD 0 + 1 < d.headD 0) := by
  intro l
  induction l with
  | nil => simp [splitChunks]
  | cons x xs ih =>
      cases xs with
      | nil =>
          intro _
          rw [splitChunks_singleton]
          exact List.chain'_singleton _
      | cons y rest =>
          intro hl
          rw [List.chain'_cons] at hl
          by_cases h : 1 < y - x
          · rw [splitChunks_cons_of_gap x y rest h]
            rw [List.chain'_cons']
            constructor
            · intro d hd
              cases hsp : splitChunks (y :: rest) with
              | nil => rw [hsp] at hd; simp at hd
              | cons g gs =>
                  rw [hsp] at hd
                  rw [List.head?_cons, Option.mem_some_iff] at hd
                  subst hd
                  obtain ⟨g', rfl⟩ := splitChunks_head y rest g gs hsp
                  simp only [List.getLastD_cons, List.getLastD_nil, List.headD_cons]
                  omega
            · exact ih hl.2
          · cases hsp : splitChunks (y :: rest) with
            | nil =>
                have hj := splitChunks_join (y :: rest)
                rw [hsp] at hj
                exact absurd hj.symm (List.cons_ne_nil y rest)
            | cons g gs =>
                rw [splitChunks_cons_of_close x y rest h g gs hsp]
                have hih := ih hl.2
                rw [hsp] at hih
                rw [List.chain'_cons'] at hih ⊢
                constructor
                · intro d hd
                  have hg : g ≠ [] :=
                    splitChunks_ne_nil (y :: rest) g (hsp ▸ List.mem_cons_self g gs)
                  have h1 : (x :: g).getLastD 0 = g.getLastD 0 := by
                    rw [List.getLastD_cons]
                    exact getLastD_default_irrel g hg x 0
                  rw [h1]
                  exact hih.1 d hd
                · exact hih.2

/-- Claim C10: on a strictly increasing integer vector `split_chunks` returns
exactly the maximal runs of consecutive integers, in order: the chunks
concatenate back to the input, each chunk is a nonempty run of consecutive
integers, adjacent chunks are separated by a genuine gap, and the empty input
yields the empty list. -/
theorem split_chunks_maximal_runs (l : List ℤ) (h : l.Chain' (· < ·)) :
    (splitChunks l).flatten = l
    ∧ (∀ c ∈ splitChunks l, c ≠ [] ∧ c.Chain' (fun a b => b = a + 1))
    ∧ (splitChunks l).Chain' (fun c d => c.getLastD 0 + 1 < d.headD 0)
    ∧ splitChunks ([] : List ℤ) = [] :=
  ⟨splitChunks_join l,
   fun c hc => ⟨splitChunks_ne_nil l c hc, splitChunks_consecutive l h c hc⟩,
   splitChunks_gaps l h, rfl⟩

/-- Witness for C10 at the concrete input `[1, 2, 4]`. -/
theorem split_chunks_maximal_runs_witness :
    (splitChunks [1, 2, 4]).flatten = [1, 2, 4] ∧ splitChunks [1, 2, 4] = [[1, 2], [4]] :=
  ⟨(split_chunks_maximal_runs [1, 2, 4]
      (List.chain'_cons.mpr ⟨by norm_num,
        List.chain'_cons.mpr ⟨by norm_num, List.chain'_singleton 4⟩⟩)).1,
   by decide⟩

/-! ### find_zero (coefs_phononic.py lines 310-370)

The source is an unbounded `while 1` loop; the embedding runs it on fuel and
returns `none` when the fuel is exhausted, so genuine non-termination shows as
`none` for every fuel.  `mode` selects the tracked eigenvalue through
`ieig = {0: 0, 1: -1}[mode]` (a `KeyError` for any other mode, embedded as the
`mode = 0 ∨ mode = 1` guard of `findZero`). -/

/-- The tracked entry `meigs[ieig]` of the callback's eigenvalue list:
the first for mode 0, the last for mode 1. -/
def trackedVal (mode : ℕ) (meigs : List ℚ) : ℚ :=
  if mode = 0 then meigs.headD 0 else meigs.getLastD 0

/-- One pass of the `while 1` body of `find_zero`, recursing on the shrinking
bracket `[fm, fp]` with fuel. -/
def findZeroAux (f0 f1 : ℚ) (cb : ℚ → List ℚ) (feps zeps : ℚ) (mode : ℕ) :
    ℕ → ℚ → ℚ → Option (ℕ × ℚ × ℚ)
  | 0, _, _ => none
  | fuel + 1, fm, fp =>
    let f := (1 / 2) * (fm + fp)
    let val := trackedVal mode (cb f)
    if |val| < zeps ∨ fp - fm < |fm| * machEps then some (0, f, val)
    else if mode = 0 then
      if f - f0 < feps then some (2, f0, val)
      else if f1 - f < feps then some (1, f1, val)
      else if 0 < val then findZeroAux f0 f1 cb feps zeps mode fuel fm f
      else findZeroAux f0 f1 cb feps zeps mode fuel f fp
    else
      if f1 - f < feps then some (1, f1, val)
      else if f - f0 < feps then some (2, f0, val)
      else if 0 < val then findZeroAux f0 f1 cb feps zeps mode fuel fm f
      else findZeroAux f0 f1 cb feps zeps mode fuel f fp

/-- Embedding of `find_zero(f0, f1, callback, feps, zeps, mode)`. -/
def findZero (fuel : ℕ) (f0 f1 : ℚ) (cb : ℚ → List ℚ) (feps zeps : ℚ) (mode : ℕ) :
    Option (ℕ × ℚ × ℚ) :=
  if mode = 0 ∨ mode = 1 then findZeroAux f0 f1 cb feps zeps mode fuel f0 f1 else none

/-- Claim C2: with the bracket `[1, 2]` the first bisection midpoint is
exactly 3/2, so for every callback whose tracked eigenvalue is monotonic with
its single zero at 3/2, `find_zero` exits at once with flag 0 and a frequency
within 1e-5 of 3/2. -/
theorem find_zero_monotonic_single_zero (cb : ℚ → List ℚ) (mode fuel : ℕ)
    (hmode : mode = 0 ∨ mode = 1)
    (hmono : Monotone (fun f => trackedVal mode (cb f))
      ∨ Antitone (fun f => trackedVal mode (cb f)))
    (hzero : trackedVal mode (cb (3 / 2)) = 0)
    (huniq : ∀ g : ℚ, trackedVal mode (cb g) = 0 → g = 3 / 2)
    (hfuel : 1 ≤ fuel) :
    ∃ f v, findZero fuel 1 2 cb (1 / 1000000) (1 / 100000000) mode = some (0, f, v)
      ∧ |f - 3 / 2| < 1 / 100000 := by
  obtain ⟨k, rfl⟩ : ∃ k, fuel = k + 1 := ⟨fuel - 1, by omega⟩
  refine ⟨3 / 2, 0, ?_, by norm_num⟩
  unfold findZero
  rw [if_pos hmode]
  have harg : (1 / 2 : ℚ) * (1 + 2) = 3 / 2 := by norm_num
  simp only [findZeroAux, harg, hzero]
  rw [if_pos (Or.inl (by norm_num : |(0 : ℚ)| < 1 / 100000000))]

/-- Witness for C2: the callback `f ↦ [f - 3/2]` is monotone with a single
zero at 3/2 and `find_zero` locates it with flag 0. -/
theorem find_zero_monotonic_single_zero_witness :
    ∃ f v, findZero 1 1 2 (fun f => [f - 3 / 2]) (1 / 1000000) (1 / 100000000) 0
      = some (0, f, v) ∧ |f - 3 / 2| < 1 / 100000 :=
  find_zero_monotonic_single_zero (fun f => [f - 3 / 2]) 0 1 (Or.inl rfl)
    (Or.inl (fun a b hab => by
      simp only [trackedVal, eq_self_iff_true, if_true, List.headD_cons]
      linarith))
    (by norm_num [trackedVal])
    (fun g hg => by
      simp only [trackedVal, eq_self_iff_true, if_true, List.headD_cons] at hg
      linarith)
    le_rfl

/-- Every `some` result of the bisection loop arises from one of its three
exits: flag 0 at a midpoint (eigenvalue below `zeps` or bracket collapsed
below machine precision), flag 2 at `f0`, or flag 1 at `f1`. -/
theorem findZeroAux_exit (f0 f1 : ℚ) (cb : ℚ → List ℚ) (feps zeps : ℚ) (mode : ℕ) :
    ∀ (fuel : ℕ) (fm fp : ℚ) (flag : ℕ) (f v : ℚ),
      findZeroAux f0 f1 cb feps zeps mode fuel fm fp = some (flag, f, v) →
        (flag = 0 ∧ v = trackedVal mode (cb f)
          ∧ ∃ fm' fp', f = (1 / 2) * (fm' + fp')
            ∧ (|v| < zeps ∨ fp' - fm' < |fm'| * machEps))
        ∨ (flag = 2 ∧ f = f0 ∧ ∃ m, m - f0 < feps ∧ v = trackedVal mode (cb m))
        ∨ (flag = 1 ∧ f = f1 ∧ ∃ m, f1 - m < feps ∧ v = trackedVal mode (cb m)) := by
  intro fuel
  induction fuel with
  | zero =>
      intro fm fp flag f v h
      exact absurd h (by simp [findZeroAux])
  | succ n ih =>
      intro fm fp flag f v h
      simp only [findZeroAux] at h
      split at h
      · next hcond =>
          simp only [Option.some.injEq, Prod.mk.injEq] at h
          obtain ⟨h1, h2, h3⟩ := h
          subst h1; subst h2; subst h3
          exact Or.inl ⟨rfl, rfl, fm, fp, rfl, hcond⟩
      · next =>
          split at h
          · next =>
              split at h
              · next hcond =>
                  simp only [Option.some.injEq, Prod.mk.injEq] at h
                  obtain ⟨h1, h2, h3⟩ := h
                  subst h1; subst h2; subst h3
                  exact Or.inr (Or.inl ⟨rfl, rfl, (1 / 2) * (fm + fp), hcond, rfl⟩)
              · next =>
                  split at h
                  · next hcond =>
                      simp only [Option.some.injEq, Prod.mk.injEq] at h
                      obtain ⟨h1, h2, h3⟩ := h
                      subst h1; subst h2; subst h3
                      exact Or.inr (Or.inr ⟨rfl, rfl, (1 / 2) * (fm + fp), hcond, rfl⟩)
                  · next =>
                      split at h
                      · exact ih _ _ _ _ _ h
                      · exact ih _ _ _ _ _ h
          · next =>
              split at h
              · next hcond =>
                  simp only [Option.some.injEq, Prod.mk.injEq] at h
                  obtain ⟨h1, h2, h3⟩ := h
                  subst h1; subst h2; subst h3
                  exact Or.inr (Or.inr ⟨rfl, rfl, (1 / 2) * (fm + fp), hcond, rfl⟩)
              · next =>
                  split at h
                  · next hcond =>
                      simp only [Option.some.injEq, Prod.mk.injEq] at h
                      obtain ⟨h1, h2, h3⟩ := h
                      subst h1; subst h2; subst h3
                      exact Or.inr (Or.inl ⟨rfl, rfl, (1 / 2) * (fm + fp), hcond, rfl⟩)
                  · next =>
                      split at h
                      · exact ih _ _ _ _ _ h
                      · exact ih _ _ _ _ _ h

/-- A callback whose tracked value jumps from -1 to 1 across 0 without ever
being near zero: it changes sign with no true zero crossing. -/
def jumpCallback (g : ℚ) : List ℚ := [if 0 < g then 1 else -1]

/-- On the bracket `[-1, 1]` the jump callback traps the bisection loop in the
state `fm = 0 < fp`: no exit condition ever fires. -/
theorem findZeroAux_jump_none :
    ∀ (fuel : ℕ) (fp : ℚ), 0 < fp → fp ≤ 1 →
      findZeroAux (-1) 1 jumpCallback (1 / 1000000) (1 / 100000000) 0 fuel 0 fp = none := by
  intro fuel
  induction fuel with
  | zero => intro fp _ _; rfl
  | succ n ih =>
      intro fp h0 h1
      have hmid : (0 : ℚ) < (1 / 2) * (0 + fp) := by linarith
      have hval : trackedVal 0 (jumpCallback ((1 / 2) * (0 + fp))) = 1 := by
        rw [jumpCallback, if_pos hmid]
        rfl
      simp only [findZeroAux, hval, eq_self_iff_true, if_true]
      split
      · next hcond =>
          exfalso
          rcases hcond with hc | hc
          · norm_num at hc
          · simp only [machEps, abs_zero, zero_mul, sub_zero] at hc
            linarith
      · next =>
          split
          · next hc => exfalso; linarith
          · next =>
              split
              · next hc => exfalso; linarith
              · next =>
                  split
                  · next => exact ih ((1 / 2) * (0 + fp)) (by linarith) (by linarith)
                  · next hc => exact absurd (by norm_num : (0 : ℚ) < 1) hc

/-- Claim C6: `find_zero` returns only through its stated exit conditions
(flag 0 at a midpoint with the eigenvalue below `zeps` or the bracket width
below machine precision relative to its bound, flag 2 within `feps` of `f0`,
flag 1 within `feps` of `f1`), and for a callback with no true zero the loop
can fail to terminate for every amount of fuel. -/
theorem find_zero_exits_and_may_not_terminate :
    (∀ (fuel : ℕ) (f0 f1 : ℚ) (cb : ℚ → List ℚ) (feps zeps : ℚ) (mode flag : ℕ) (f v : ℚ),
        findZero fuel f0 f1 cb feps zeps mode = some (flag, f, v) →
          (flag = 0 ∧ v = trackedVal mode (cb f)
            ∧ ∃ fm fp, f = (1 / 2) * (fm + fp)
              ∧ (|v| < zeps ∨ fp - fm < |fm| * machEps))
          ∨ (flag = 2 ∧ f = f0 ∧ ∃ m, m - f0 < feps ∧ v = trackedVal mode (cb m))
          ∨ (flag = 1 ∧ f = f1 ∧ ∃ m, f1 - m < feps ∧ v = trackedVal mode (cb m)))
    ∧ (∃ cb : ℚ → List ℚ,
        (∀ g : ℚ, ¬ |trackedVal 0 (cb g)| < 1 / 100000000)
        ∧ ∀ fuel : ℕ,
            findZero fuel (-1) 1 cb (1 / 1000000) (1 / 100000000) 0 = none) := by
  constructor
  · intro fuel f0 f1 cb feps zeps mode flag f v h
    unfold findZero at h
    by_cases hmode : mode = 0 ∨ mode = 1
    · rw [if_pos hmode] at h
      exact findZeroAux_exit f0 f1 cb feps zeps mode fuel f0 f1 flag f v h
    · rw [if_neg hmode] at h
      exact absurd h (by simp)
  · refine ⟨jumpCallback, ?_, ?_⟩
    · intro g
      by_cases hg : 0 < g
      · rw [show trackedVal 0 (jumpCallback g) = 1 by rw [jumpCallback, if_pos hg]; rfl]
        norm_num
      · rw [show trackedVal 0 (jumpCallback g) = -1 by rw [jumpCallback, if_neg hg]; rfl]
        norm_num
    · intro fuel
      unfold findZero
      rw [if_pos (Or.inl rfl)]
      cases fuel with
      | zero => rfl
      | succ n =>
          have hval : trackedVal 0 (jumpCallback ((1 / 2) * (-1 + 1))) = -1 := by
            rw [jumpCallback, if_neg (by norm_num)]
            rfl
          simp only [findZeroAux, hval, eq_self_iff_true, if_true]
          split
          · next hcond =>
              exfalso
              rcases hcond with hc | hc
              · norm_num at hc
              · simp only [machEps] at hc
                norm_num at hc
          · next =>
              split
              · next hc => exfalso; norm_num at hc
              · next =>
                  split
                  · next hc => exfalso; norm_num at hc
                  · next =>
                      split
                      · next hc => exfalso; norm_num at hc
                      · next =>
                          rw [show (1 / 2 : ℚ) * (-1 + 1) = 0 by norm_num]
                          exact findZeroAux_jump_none n 1 (by norm_num) le_rfl

/-! ### detect_band_gaps (coefs_phononic.py lines 117-265)

The per-interval work is embedded as a function of the sampled frequencies
`log_freqs` and of the eigenvalue callback `eig(mass(f))` (both the trace and
the find-zero callbacks of `get_callback` with `mtx_b = None` wrap exactly
that call).  The pure log bookkeeping (insertion of found roots into the logs)
does not feed back into the produced gap and is not modelled.  The embedding
additionally returns how many times `find_zero` was invoked. -/

/-- A band-gap boundary `[flag, frequency, eigenvalue]`. -/
abbrev Bdry : Type := ℕ × ℚ × ℚ

/-- A gap record: one boundary pair, or a list of sub-gap pairs produced by
the `'liquid'` mode. -/
inductive GapEntry : Type
  | single (gmin gmax : Bdry)
  | multiple (pairs : List (Bdry × Bdry))
deriving DecidableEq

/-- The `'normal'`-mode per-interval classification of `detect_band_gaps`
(lines 207-251), also counting the `find_zero` invocations. -/
def processIntervalNormal (fuel : ℕ) (lfs : List ℚ) (cb : ℚ → List ℚ)
    (feps zeps : ℚ) : Option (GapEntry × ℕ) :=
  let lf0 := lfs.headD 0
  let lf1 := lfs.getLastD 0
  let log0 := cb lf0
  let log1 := cb lf1
  let minEig0 := log0.headD 0
  let maxEig1 := log1.getLastD 0
  if 0 < minEig0 then
    some (.single (2, lf0, log0.headD 0) (2, lf0, log0.getLastD 0), 0)
  else if maxEig1 < 0 then
    some (.single (1, lf1, log1.headD 0) (1, lf1, log1.getLastD 0), 0)
  else
    match findZero fuel lf0 lf1 cb feps zeps 1 with
    | none => none
    | some (smax, fmax, vmax) =>
      if smax = 0 ∨ smax = 2 then
        match findZero fuel lf0 lf1 cb feps zeps 0 with
        | none => none
        | some (smin, fmin, vmin) =>
          some (.single (smin, fmin, vmin) (smax, fmax, vmax), 2)
      else if smax = 1 then
        some (.single (1, fmax, vmax) (smax, fmax, vmax), 1)
      else
        none

/-- Claim C4: in `'normal'` mode an interval whose smallest eigenvalue at the
first sample is positive yields the flag-(2,2) pair at the first sample
frequency, and otherwise one whose largest eigenvalue at the last sample is
negative yields the flag-(1,1) pair at the last sample frequency; in both
cases `find_zero` is never invoked. -/
theorem detect_band_gaps_normal_endpoints (fuel : ℕ) (lfs : List ℚ)
    (cb : ℚ → List ℚ) (feps zeps : ℚ) (h : lfs ≠ []) :
    (0 < (cb (lfs.headD 0)).headD 0 →
      processIntervalNormal fuel lfs cb feps zeps
        = some (.single (2, lfs.headD 0, (cb (lfs.headD 0)).headD 0)
                        (2, lfs.headD 0, (cb (lfs.headD 0)).getLastD 0), 0))
    ∧ (¬ 0 < (cb (lfs.headD 0)).headD 0 → (cb (lfs.getLastD 0)).getLastD 0 < 0 →
      processIntervalNormal fuel lfs cb feps zeps
        = some (.single (1, lfs.getLastD 0, (cb (lfs.getLastD 0)).headD 0)
                        (1, lfs.getLastD 0, (cb (lfs.getLastD 0)).getLastD 0), 0)) := by
  constructor
  · intro hpos
    unfold processIntervalNormal
    rw [if_pos hpos]
  · intro hnpos hneg
    unfold processIntervalNormal
    rw [if_neg hnpos, if_pos hneg]

/-- Witness for C4 at the samples `[1, 2]` with the constant trace `[1, 1]`:
the no-gap branch fires with zero root-finder invocations. -/
theorem detect_band_gaps_normal_endpoints_witness :
    processIntervalNormal 0 [1, 2] (fun _ => [1, 1]) (1 / 1000000) (1 / 100000000)
      = some (.single (2, 1, 1) (2, 1, 1), 0) :=
  (detect_band_gaps_normal_endpoints 0 [1, 2] (fun _ => [1, 1])
    (1 / 1000000) (1 / 100000000) (by simp)).1 (by norm_num)

/-- Sample indices whose smallest traced eigenvalue is negative:
`si = nm.where(mevp[:, 0] < 0.0)[0]` of the `'liquid'` branch (line 180). -/
def siIdx (mevp : List (List ℚ)) : List ℤ :=
  List.map Int.ofNat
    ((List.range mevp.length).filter (fun i => (mevp.getD i []).headD 0 < 0))

/-- Sample indices whose largest traced eigenvalue is negative:
`li = nm.where(mevp[:, -1] < 0.0)[0]` (line 181). -/
def liIdx (mevp : List (List ℚ)) : List ℤ :=
  List.map Int.ofNat
    ((List.range mevp.length).filter (fun i => (mevp.getD i []).getLastD 0 < 0))

/-- The weak indices `wi = nm.setdiff1d(si, li)` (line 182). -/
def wiIdx (mevp : List (List ℚ)) : List ℤ :=
  (siIdx mevp).filter (fun i => decide (i ∉ liIdx mevp))

/-- The strong sub-gap pair emitted for a chunk of `li` (lines 194-198). -/
def strongPair (lfs : List ℚ) (mevp : List (List ℚ)) (chunk : List ℤ) : Bdry × Bdry :=
  ((1, lfs.getD (chunk.headD 0).toNat 0, (mevp.getD (chunk.headD 0).toNat []).getLastD 0),
   (1, lfs.getD (chunk.getLastD 0).toNat 0,
     (mevp.getD (chunk.getLastD 0).toNat []).getLastD 0))

/-- The weak sub-gap pair emitted for a chunk of `wi` (lines 200-204). -/
def weakPair (lfs : List ℚ) (mevp : List (List ℚ)) (chunk : List ℤ) : Bdry × Bdry :=
  ((0, lfs.getD (chunk.headD 0).toNat 0, (mevp.getD (chunk.headD 0).toNat []).getLastD 0),
   (2, lfs.getD (chunk.getLastD 0).toNat 0,
     (mevp.getD (chunk.getLastD 0).toNat []).getLastD 0))

/-- The `'liquid'`-mode per-interval classification of `detect_band_gaps`
(lines 178-205), as a function of the sampled frequencies and the matrix of
traced eigenvalues (one row per sample). -/
def processIntervalLiquid (lfs : List ℚ) (mevp : List (List ℚ)) : GapEntry :=
  let lf0 := lfs.headD 0
  let lf1 := lfs.getLastD 0
  let log0 := mevp.headD []
  let log1 := mevp.getLastD []
  if (siIdx mevp).length = 0 then
    .single (2, lf0, log0.headD 0) (2, lf0, log0.getLastD 0)
  else if (liIdx mevp).length = mevp.length then
    .single (1, lf1, log1.headD 0) (1, lf1, log1.getLastD 0)
  else
    .multiple ((splitChunks (liIdx mevp)).map (strongPair lfs mevp)
      ++ (splitChunks (wiIdx mevp)).map (weakPair lfs mevp))

/-- Claim C5: in `'liquid'` mode, when some but not all samples have a
negative smallest eigenvalue, the interval yields one flag-(1,1) pair per
chunk of `li` (at the chunk's first and last sample frequencies) followed by
one flag-(0,2) pair per chunk of `wi`. -/
theorem detect_band_gaps_liquid_subgaps (lfs : List ℚ) (mevp : List (List ℚ))
    (hrows : ∀ r ∈ mevp, r.headD 0 ≤ r.getLastD 0)
    (hsome : ∃ i, i < mevp.length ∧ (mevp.getD i []).headD 0 < 0)
    (hnotall : ∃ j, j < mevp.length ∧ ¬ (mevp.getD j []).headD 0 < 0) :
    processIntervalLiquid lfs mevp
      = .multiple ((splitChunks (liIdx mevp)).map (strongPair lfs mevp)
          ++ (splitChunks (wiIdx mevp)).map (weakPair lfs mevp))
    ∧ (∀ p ∈ (splitChunks (liIdx mevp)).map (strongPair lfs mevp),
        p.1.1 = 1 ∧ p.2.1 = 1)
    ∧ (∀ p ∈ (splitChunks (wiIdx mevp)).map (weakPair lfs mevp),
        p.1.1 = 0 ∧ p.2.1 = 2) := by
  obtain ⟨i, hi, hineg⟩ := hsome
  obtain ⟨j, hj, hjpos⟩ := hnotall
  have hc1 : ¬ (siIdx mevp).length = 0 := by
    have hmemf : i ∈ (List.range mevp.length).filter
        (fun i => decide ((mevp.getD i []).headD 0 < 0)) :=
      List.mem_filter.mpr ⟨List.mem_range.mpr hi, by simpa using hineg⟩
    have hmem : Int.ofNat i ∈ siIdx mevp := List.mem_map.mpr ⟨i, hmemf, rfl⟩
    intro hlen
    rw [List.length_eq_zero] at hlen
    rw [hlen] at hmem
    exact List.not_mem_nil _ hmem
  have hc2 : ¬ (liIdx mevp).length = mevp.length := by
    intro hlen
    unfold liIdx at hlen
    rw [List.length_map] at hlen
    have hsub : List.Sublist ((List.range mevp.length).filter
        (fun i => decide ((mevp.getD i []).getLastD 0 < 0))) (List.range mevp.length) :=
      List.filter_sublist (List.range mevp.length)
    have heq := hsub.eq_of_length (by rw [hlen, List.length_range])
    have hjmem : j ∈ (List.range mevp.length).filter
        (fun i => decide ((mevp.getD i []).getLastD 0 < 0)) := by
      rw [heq]
      exact List.mem_range.mpr hj
    have hjlt : (mevp.getD j []).getLastD 0 < 0 := by
      simpa using (List.mem_filter.mp hjmem).2
    have hle : (mevp.getD j []).headD 0 ≤ (mevp.getD j []).getLastD 0 := by
      apply hrows
      rw [List.getD_eq_getElem _ _ hj]
      exact List.getElem_mem hj
    exact hjpos (lt_of_le_of_lt hle hjlt)
  refine ⟨?_, ?_, ?_⟩
  · unfold processIntervalLiquid
    rw [if_neg hc1, if_neg hc2]
  · intro p hp
    obtain ⟨c, _, rfl⟩ := List.mem_map.mp hp
    exact ⟨rfl, rfl⟩
  · intro p hp
    obtain ⟨c, _, rfl⟩ := List.mem_map.mp hp
    exact ⟨rfl, rfl⟩

/-- Witness for C5: samples `[1, 2, 3]` with eigenvalue rows
`[-2, -1], [-1, 1], [1, 2]` yield one strong (1,1) sub-gap at sample 0 and
one weak (0,2) sub-gap at sample 1. -/
theorem detect_band_gaps_liquid_subgaps_witness :
    processIntervalLiquid [1, 2, 3] [[-2, -1], [-1, 1], [1, 2]]
      = GapEntry.multiple [((1, 1, -1), (1, 1, -1)), ((0, 2, 1), (2, 2, 1))] :=
  ((detect_band_gaps_liquid_subgaps [1, 2, 3] [[-2, -1], [-1, 1], [1, 2]]
    (by decide) ⟨0, by decide, by decide⟩ ⟨2, by decide, by decide⟩).1).trans (by decide)

/-! ### describe_gaps (coefs_phononic.py lines 372-409)

The Python loop keeps a single local variable `kind`.  In the sub-gap branch
an unmatched `(gmin, gmax)` combination assigns nothing, so
`subkinds.append(kind)` silently appends the most recently computed kind, or
raises a `NameError` when no kind was ever computed; this state is embedded as
the `Option Kind` argument threaded through the recursion. -/

/-- A gap kind: short code plus human-readable description. -/
abbrev Kind : Type := String × String

/-- One entry of the `kinds` result: a kind for a plain boundary pair, or a
list of kinds for a liquid-mode sub-gap list. -/
inductive KindsEntry : Type
  | one (k : Kind)
  | many (ks : List Kind)
deriving DecidableEq

/-- The plain-pair classification chain of `describe_gaps` (lines 390-406). -/
def classifyPair (g1 g2 : ℕ) : Option Kind :=
  if g1 = 2 ∧ g2 = 2 then some ("p", "propagation zone")
  else if g1 = 1 ∧ g2 = 2 then some ("w", "full weak band gap")
  else if g1 = 0 ∧ g2 = 2 then some ("wp", "weak band gap + propagation zone")
  else if g1 = 1 ∧ g2 = 1 then
    some ("s", "full strong band gap (due to end of freq. range or too large thresholds)")
  else if g1 = 1 ∧ g2 = 0 then some ("sw", "strong band gap + weak band gap")
  else if g1 = 0 ∧ g2 = 0 then
    some ("swp", "strong band gap + weak band gap + propagation zone")
  else none

/-- The sub-gap classification chain of `describe_gaps` (lines 378-383): only
three combinations assign a kind, any other falls through. -/
def classifySubPair (g1 g2 : ℕ) : Option Kind :=
  if g1 = 2 ∧ g2 = 2 then some ("p", "propagation zone")
  else if g1 = 1 ∧ g2 = 1 then some ("is", "inner strong band gap")
  else if g1 = 0 ∧ g2 = 2 then some ("iw", "inner weak band gap")
  else none

/-- Prepending the kind appended in one sub-gap iteration to the remaining
iterations' result. -/
def consKind (k : Kind) : Except String (List Kind × Option Kind) →
    Except String (List Kind × Option Kind)
  | .ok (ks, kv') => .ok (k :: ks, kv')
  | .error e => .error e

/-- The sub-gap loop (lines 376-384), threading the Python `kind` variable. -/
def describeSub : Option Kind → List (Bdry × Bdry) →
    Except String (List Kind × Option Kind)
  | kv, [] => .ok ([], kv)
  | kv, (gmin, gmax) :: rest =>
    match classifySubPair gmin.1 gmax.1, kv with
    | some k, _ => consKind k (describeSub (some k) rest)
    | none, some k => consKind k (describeSub kv rest)
    | none, none =>
      .error "NameError: local variable kind referenced before assignment"

/-- Prepending one main-loop iteration's kinds entry to the remaining
iterations' result. -/
def consEntry (k : KindsEntry) : Except String (List KindsEntry) →
    Except String (List KindsEntry)
  | .ok ks => .ok (k :: ks)
  | .error e => .error e

/-- The main loop of `describe_gaps`, threading the Python `kind` variable. -/
def describeGapsAux : Option Kind → List GapEntry → Except String (List KindsEntry)
  | _, [] => .ok []
  | _, GapEntry.single gmin gmax :: rest =>
    match classifyPair gmin.1 gmax.1 with
    | some k => consEntry (KindsEntry.one k) (describeGapsAux (some k) rest)
    | none => .error "impossible band gap combination"
  | kv, GapEntry.multiple pairs :: rest =>
    match describeSub kv pairs with
    | .ok (ks, kv') => consEntry (KindsEntry.many ks) (describeGapsAux kv' rest)
    | .error e => .error e

/-- Embedding of `describe_gaps` (lines 372-409). -/
def describeGaps (gaps : List GapEntry) : Except String (List KindsEntry) :=
  describeGapsAux none gaps

/-- The plain-pair rows of the specification's classification table:
`(gmin flag, gmax flag, kind code)`. -/
def specTable : List (ℕ × ℕ × String) :=
  [(2, 2, "p"), (1, 2, "w"), (0, 2, "wp"), (1, 1, "s"), (1, 0, "sw"), (0, 0, "swp")]

/-- The liquid sub-gap rows of the specification's classification table. -/
def specSubTable : List (ℕ × ℕ × String) :=
  [(2, 2, "p"), (1, 1, "is"), (0, 2, "iw")]

example : describeGaps [GapEntry.single (1, 0, 0) (2, 0, 0)]
    = .ok [KindsEntry.one ("w", "full weak band gap")] := rfl
example : describeGaps [GapEntry.single (2, 0, 0) (1, 0, 0)]
    = .error "impossible band gap combination" := rfl

/-- Counterexample for C3: inside a liquid-mode sub-gap list, the pair with
flags `(0, 1)` belongs to no row of the classification table, yet
`describe_gaps` raises no error: it silently appends the previously computed
kind again. -/
theorem describe_gaps_subgap_absorbed_cex :
    describeGaps [GapEntry.multiple [((1, 0, 0), (1, 0, 0)), ((0, 0, 0), (1, 0, 0))]]
      = .ok [KindsEntry.many [("is", "inner strong band gap"),
          ("is", "inner strong band gap")]]
    ∧ (∀ code : String, ((0 : ℕ), (1 : ℕ), code) ∉ specTable
        ∧ ((0 : ℕ), (1 : ℕ), code) ∉ specSubTable) := by
  refine ⟨rfl, fun code => ⟨?_, ?_⟩⟩
  · simp [specTable]
  · simp [specSubTable]

/-- Helper: a plain pair outside every row of the table classifies to none. -/
theorem classifyPair_none_of_not_in_table (g1 g2 : ℕ)
    (h : ∀ code, (g1, g2, code) ∉ specTable) : classifyPair g1 g2 = none := by
  unfold classifyPair
  rw [if_neg (fun ⟨a, b⟩ => h "p" (by simp [specTable, a, b]))]
  rw [if_neg (fun ⟨a, b⟩ => h "w" (by simp [specTable, a, b]))]
  rw [if_neg (fun ⟨a, b⟩ => h "wp" (by simp [specTable, a, b]))]
  rw [if_neg (fun ⟨a, b⟩ => h "s" (by simp [specTable, a, b]))]
  rw [if_neg (fun ⟨a, b⟩ => h "sw" (by simp [specTable, a, b]))]
  rw [if_neg (fun ⟨a, b⟩ => h "swp" (by simp [specTable, a, b]))]

/-- Helper: a sub-gap pair outside every row of the sub-gap table classifies
to none. -/
theorem classifySubPair_none_of_not_in_table (g1 g2 : ℕ)
    (h : ∀ code, (g1, g2, code) ∉ specSubTable) : classifySubPair g1 g2 = none := by
  unfold classifySubPair
  rw [if_neg (fun ⟨a, b⟩ => h "p" (by simp [specSubTable, a, b]))]
  rw [if_neg (fun ⟨a, b⟩ => h "is" (by simp [specSubTable, a, b]))]
  rw [if_neg (fun ⟨a, b⟩ => h "iw" (by simp [specSubTable, a, b]))]

/-- Claim C3 as amended: `describe_gaps` maps every table row to its kind code
for plain pairs and for sub-gap pairs, and a plain pair outside the table
raises the fatal classification error; but a sub-gap pair outside the table is
not rejected: with no previously computed kind it hits an unbound-variable
error, and after any classified sub-gap pair it silently reuses the most
recent kind. -/
theorem describe_gaps_classification (g1 g2 : ℕ) (fa va fb vb : ℚ) :
    (∀ code, (g1, g2, code) ∈ specTable →
      ∃ descr, describeGaps [GapEntry.single (g1, fa, va) (g2, fb, vb)]
        = .ok [KindsEntry.one (code, descr)])
    ∧ ((∀ code, (g1, g2, code) ∉ specTable) →
      describeGaps [GapEntry.single (g1, fa, va) (g2, fb, vb)]
        = .error "impossible band gap combination")
    ∧ (∀ code, (g1, g2, code) ∈ specSubTable →
      ∃ descr, describeGaps [GapEntry.multiple [((g1, fa, va), (g2, fb, vb))]]
        = .ok [KindsEntry.many [(code, descr)]])
    ∧ ((∀ code, (g1, g2, code) ∉ specSubTable) →
      describeGaps [GapEntry.multiple [((g1, fa, va), (g2, fb, vb))]]
        = .error "NameError: local variable kind referenced before assignment")
    ∧ ((∀ code, (g1, g2, code) ∉ specSubTable) → ∀ ka,
      classifySubPair 1 1 = some ka →
      describeGaps [GapEntry.multiple [((1, fa, va), (1, fb, vb)),
          ((g1, fa, va), (g2, fb, vb))]]
        = .ok [KindsEntry.many [ka, ka]]) := by
  refine ⟨?_, ?_, ?_, ?_, ?_⟩
  · intro code hmem
    simp only [specTable, List.mem_cons, List.not_mem_nil, or_false,
      Prod.mk.injEq] at hmem
    rcases hmem with ⟨h1, h2, h3⟩ | ⟨h1, h2, h3⟩ | ⟨h1, h2, h3⟩ | ⟨h1, h2, h3⟩
      | ⟨h1, h2, h3⟩ | ⟨h1, h2, h3⟩ <;> subst h1 <;> subst h2 <;> subst h3
    · exact ⟨"propagation zone", rfl⟩
    · exact ⟨"full weak band gap", rfl⟩
    · exact ⟨"weak band gap + propagation zone", rfl⟩
    · exact ⟨"full strong band gap (due to end of freq. range or too large thresholds)",
        rfl⟩
    · exact ⟨"strong band gap + weak band gap", rfl⟩
    · exact ⟨"strong band gap + weak band gap + propagation zone", rfl⟩
  · intro h
    have hnone := classifyPair_none_of_not_in_table g1 g2 h
    unfold describeGaps describeGapsAux
    rw [hnone]
  · intro code hmem
    simp only [specSubTable, List.mem_cons, List.not_mem_nil, or_false,
      Prod.mk.injEq] at hmem
    rcases hmem with ⟨h1, h2, h3⟩ | ⟨h1, h2, h3⟩ | ⟨h1, h2, h3⟩ <;>
      subst h1 <;> subst h2 <;> subst h3
    · exact ⟨"propagation zone", rfl⟩
    · exact ⟨"inner strong band gap", rfl⟩
    · exact ⟨"inner weak band gap", rfl⟩
  · intro h
    have hnone := classifySubPair_none_of_not_in_table g1 g2 h
    unfold describeGaps
    simp only [describeGapsAux, describeSub, hnone]
  · intro h ka hka
    have hone : classifySubPair 1 1 = some ("is", "inner strong band gap") := rfl
    rw [hone, Option.some.injEq] at hka
    subst hka
    have hnone := classifySubPair_none_of_not_in_table g1 g2 h
    unfold describeGaps
    simp only [describeGapsAux, describeSub, hone, hnone]
    rfl

/-! ### AcousticMassTensor (coefs_phononic.py lines 640-693)

`__call__` filters the eigenvalues and eigenmomenta by the validity mask;
`evaluate(freq)` builds `fmass` for `ir ≤ ic` from `num / denom` of
`get_coefs` and mirrors the lower triangle, then returns
`eye * average_density - fmass / total_volume`. -/

/-- Boolean-mask selection `xs[valid]` of numpy, for equal-length lists. -/
def filterValid {α : Type} (xs : List α) (valid : List Bool) : List α :=
  ((xs.zip valid).filter (fun p => p.2)).map (fun p => p.1)

/-- Embedding of `AcousticMassTensor.get_coefs`: `(f2, f2 - eigs)`. -/
def getCoefs (eigs : List ℚ) (freq : ℚ) : ℚ × List ℚ :=
  (freq * freq, eigs.map (fun e => freq * freq - e))

/-- The accumulated `nm.sum((num / denom) * (ema[:, ir] * ema[:, ic]))` of
`evaluate` for one upper-triangle entry. -/
def fmassEntry (eigs : List ℚ) (ema : List (List ℚ)) (freq : ℚ) (ir ic : ℕ) : ℚ :=
  (((getCoefs eigs freq).2.zip ema).map
    (fun p => (getCoefs eigs freq).1 / p.1 * (p.2.getD ir 0 * p.2.getD ic 0))).sum

/-- Embedding of `AcousticMassTensor.evaluate`: the `n_c × n_c` matrix
`eye * average_density - fmass / total_volume`, with the lower triangle
mirrored from the upper one. -/
def evaluateAMT (eigs : List ℚ) (ema : List (List ℚ)) (avg vol freq : ℚ) :
    List (List ℚ) :=
  let nc := (ema.headD []).length
  (List.range nc).map (fun ir => (List.range nc).map (fun ic =>
    (if ir = ic then avg else 0)
      - (if ir ≤ ic then fmassEntry eigs ema freq ir ic
         else fmassEntry eigs ema freq ic ir) / vol))

/-- Embedding of `AcousticMassTensor.__call__` followed by `evaluate`: the
mask is applied to the eigenvalues and the eigenmomenta first. -/
def massTensorOfValid (evpEigs : List ℚ) (emaRows : List (List ℚ))
    (valid : List Bool) (avg vol freq : ℚ) : List (List ℚ) :=
  evaluateAMT (filterValid evpEigs valid) (filterValid emaRows valid) avg vol freq

/-- The specification's accumulated sum
`Σ_k (freq² / (freq² - eig_k)) * momentum_k[ir] * momentum_k[ic]` over the
valid modes only. -/
def specMassSum (evpEigs : List ℚ) (emaRows : List (List ℚ)) (valid : List Bool)
    (freq : ℚ) (ir ic : ℕ) : ℚ :=
  (((filterValid evpEigs valid).zip (filterValid emaRows valid)).map
    (fun p => freq * freq / (freq * freq - p.1) * (p.2.getD ir 0 * p.2.getD ic 0))).sum

/-- The accumulated entry is symmetric in its two component indices. -/
theorem fmassEntry_comm (eigs : List ℚ) (ema : List (List ℚ)) (freq : ℚ)
    (ir ic : ℕ) : fmassEntry eigs ema freq ir ic = fmassEntry eigs ema freq ic ir := by
  unfold fmassEntry
  congr 1
  apply List.map_congr_left
  intro p _
  ring

/-- Indexing a mapped range below its length evaluates the function. -/
theorem getD_map_range {α : Type} (n : ℕ) (f : ℕ → α) (i : ℕ) (h : i < n) (d : α) :
    ((List.range n).map f).getD i d = f i := by
  rw [List.getD_eq_getElem?_getD, List.getElem?_map, List.getElem?_range h]
  rfl

/-- The sum of `evaluate` agrees with the specification's sum over valid
modes. -/
theorem fmassEntry_eq_specMassSum (evpEigs : List ℚ) (emaRows : List (List ℚ))
    (valid : List Bool) (freq : ℚ) (ir ic : ℕ) :
    fmassEntry (filterValid evpEigs valid) (filterValid emaRows valid) freq ir ic
      = specMassSum evpEigs emaRows valid freq ir ic := by
  unfold fmassEntry specMassSum getCoefs
  congr 1
  rw [List.zip_map_left]
  rw [List.map_map]
  apply List.map_congr_left
  intro p _
  rfl

/-- Claim C1: for every frequency whose denominator coefficients are all
nonzero, the evaluated mass tensor entry equals
`average_density * I - (Σ_k freq²/(freq² - eig_k) * m_k[ir] * m_k[ic]
over valid modes) / total_volume`, and the matrix is symmetric. -/
theorem acoustic_mass_tensor_formula_symmetric (evpEigs : List ℚ)
    (emaRows : List (List ℚ)) (valid : List Bool) (avg vol freq : ℚ)
    (hfin : ∀ e ∈ filterValid evpEigs valid, freq * freq - e ≠ 0)
    (ir ic : ℕ)
    (hir : ir < ((filterValid emaRows valid).headD []).length)
    (hic : ic < ((filterValid emaRows valid).headD []).length) :
    ((massTensorOfValid evpEigs emaRows valid avg vol freq).getD ir []).getD ic 0
      = (if ir = ic then avg else 0)
        - specMassSum evpEigs emaRows valid freq ir ic / vol
    ∧ ((massTensorOfValid evpEigs emaRows valid avg vol freq).getD ir []).getD ic 0
      = ((massTensorOfValid evpEigs emaRows valid avg vol freq).getD ic []).getD ir 0 := by
  have hentry : ∀ a b : ℕ,
      a < ((filterValid emaRows valid).headD []).length →
      b < ((filterValid emaRows valid).headD []).length →
      ((massTensorOfValid evpEigs emaRows valid avg vol freq).getD a []).getD b 0
        = (if a = b then avg else 0)
          - (if a ≤ b then
              fmassEntry (filterValid evpEigs valid) (filterValid emaRows valid) freq a b
             else
              fmassEntry (filterValid evpEigs valid) (filterValid emaRows valid) freq b a)
            / vol := by
    intro a b ha hb
    unfold massTensorOfValid evaluateAMT
    rw [getD_map_range _ _ _ ha, getD_map_range _ _ _ hb]
  constructor
  · rw [hentry ir ic hir hic]
    by_cases hle : ir ≤ ic
    · rw [if_pos hle, fmassEntry_eq_specMassSum]
    · rw [if_neg hle, fmassEntry_comm, fmassEntry_eq_specMassSum]
  · rw [hentry ir ic hir hic, hentry ic ir hic hir]
    have hsw : (if ir = ic then avg else 0) = (if ic = ir then avg else 0) := by
      by_cases h : ir = ic
      · rw [if_pos h, if_pos h.symm]
      · rw [if_neg h, if_neg (fun hh => h hh.symm)]
    rw [hsw]
    by_cases hle : ir ≤ ic
    · by_cases hge : ic ≤ ir
      · rw [if_pos hle, if_pos hge, fmassEntry_comm]
      · rw [if_pos hle, if_neg hge]
    · have hge : ic ≤ ir := le_of_not_le hle
      rw [if_neg hle, if_pos hge]

/-- Witness for C1 at two valid modes with distinct eigenmomenta. -/
theorem acoustic_mass_tensor_formula_symmetric_witness :
    ((massTensorOfValid [4, 9] [[1, 2], [3, 5]] [true, true] 1 1 1).getD 0 []).getD 1 0
      = (if (0 : ℕ) = 1 then (1 : ℚ) else 0)
        - specMassSum [4, 9] [[1, 2], [3, 5]] [true, true] 1 0 1 / 1
    ∧ ((massTensorOfValid [4, 9] [[1, 2], [3, 5]] [true, true] 1 1 1).getD 0 []).getD 1 0
      = ((massTensorOfValid [4, 9] [[1, 2], [3, 5]] [true, true] 1 1 1).getD 1 []).getD 0 0 :=
  acoustic_mass_tensor_formula_symmetric [4, 9] [[1, 2], [3, 5]] [true, true] 1 1 1
    (by
      intro e he
      rw [show filterValid [(4 : ℚ), 9] [true, true] = [4, 9] from rfl] at he
      rcases List.mem_cons.mp he with rfl | he
      · norm_num
      · rcases List.mem_cons.mp he with rfl | he
        · norm_num
        · exact absurd he (List.not_mem_nil e))
    0 1 (by decide) (by decide)

/-! ### IEEE special values and the resonance guard (lines 663-693)

The guard of `evaluate` is `if not nm.isfinite(denom).all(): raise ...`.  A
zero denominator (frequency exactly at an eigenfrequency) is finite, so the
guard passes and `num / denom` produces infinities.  `FV` models a double as
an exact rational, `+inf`, `-inf` or `nan`, with IEEE semantics for the
operations `evaluate` performs (overflow of finite results is not modelled,
which only widens the set of inputs the guard accepts). -/

/-- An IEEE double: finite value, infinity of either sign, or nan. -/
inductive FV : Type
  | num (q : ℚ)
  | pinf
  | ninf
  | nan
deriving DecidableEq

/-- IEEE subtraction. -/
def FV.sub : FV → FV → FV
  | .num a, .num b => .num (a - b)
  | .nan, _ => .nan
  | _, .nan => .nan
  | .pinf, .pinf => .nan
  | .ninf, .ninf => .nan
  | .pinf, _ => .pinf
  | .ninf, _ => .ninf
  | .num _, .pinf => .ninf
  | .num _, .ninf => .pinf

/-- IEEE addition. -/
def FV.add : FV → FV → FV
  | .num a, .num b => .num (a + b)
  | .nan, _ => .nan
  | _, .nan => .nan
  | .pinf, .ninf => .nan
  | .ninf, .pinf => .nan
  | .pinf, _ => .pinf
  | .ninf, _ => .ninf
  | .num _, .pinf => .pinf
  | .num _, .ninf => .ninf

/-- IEEE multiplication. -/
def FV.mul : FV → FV → FV
  | .num a, .num b => .num (a * b)
  | .nan, _ => .nan
  | _, .nan => .nan
  | .pinf, .pinf => .pinf
  | .pinf, .ninf => .ninf
  | .ninf, .pinf => .ninf
  | .ninf, .ninf => .pinf
  | .pinf, .num b => if 0 < b then .pinf else if b < 0 then .ninf else .nan
  | .num a, .pinf => if 0 < a then .pinf else if a < 0 then .ninf else .nan
  | .ninf, .num b => if 0 < b then .ninf else if b < 0 then .pinf else .nan
  | .num a, .ninf => if 0 < a then .ninf else if a < 0 then .pinf else .nan

/-- IEEE division (division of a nonzero finite value by zero gives a signed
infinity, `0/0` gives nan). -/
def FV.div : FV → FV → FV
  | .num a, .num b =>
    if b = 0 then (if 0 < a then .pinf else if a < 0 then .ninf else .nan)
    else .num (a / b)
  | .nan, _ => .nan
  | _, .nan => .nan
  | .num _, .pinf => .num 0
  | .num _, .ninf => .num 0
  | .pinf, .num b => if 0 ≤ b then .pinf else .ninf
  | .ninf, .num b => if 0 ≤ b then .ninf else .pinf
  | .pinf, .pinf => .nan
  | .pinf, .ninf => .nan
  | .ninf, .pinf => .nan
  | .ninf, .ninf => .nan

/-- The `nm.isfinite` test. -/
def FV.isFinite : FV → Bool
  | .num _ => true
  | _ => false

/-- The `nm.sum` accumulation. -/
def FV.sum (l : List FV) : FV := l.foldl FV.add (.num 0)

/-- `AcousticMassTensor.get_coefs` under the IEEE model: `(f2, f2 - eigs)`
with exact stored eigenvalues. -/
def getCoefsFV (eigs : List ℚ) (freq : ℚ) : FV × List FV :=
  (.num (freq * freq), eigs.map (fun e => FV.sub (.num (freq * freq)) (.num e)))

/-- One accumulated upper-triangle entry of `evaluate` under the IEEE
model. -/
def fmassEntryFV (eigs : List ℚ) (ema : List (List ℚ)) (freq : ℚ) (ir ic : ℕ) : FV :=
  FV.sum (((getCoefsFV eigs freq).2.zip ema).map
    (fun p => FV.mul (FV.div (getCoefsFV eigs freq).1 p.1)
      (.num (p.2.getD ir 0 * p.2.getD ic 0))))

/-- `AcousticMassTensor.evaluate` under the IEEE model, with the `isfinite`
guard of lines 670-671. -/
def evaluateFV (eigs : List ℚ) (ema : List (List ℚ)) (avg vol freq : ℚ) :
    Except String (List (List FV)) :=
  if ¬ ((getCoefsFV eigs freq).2.all FV.isFinite) then
    .error "frequency too close to resonance"
  else
    .ok ((List.range (ema.headD []).length).map (fun ir =>
      (List.range (ema.headD []).length).map (fun ic =>
        FV.sub (.num (if ir = ic then avg else 0))
          (FV.div (if ir ≤ ic then fmassEntryFV eigs ema freq ir ic
                   else fmassEntryFV eigs ema freq ic ir) (.num vol)))))

/-- Claim C7 fails on the code: at `freq = 2` with the single valid
eigenvalue 4 (so `freq` coincides exactly with the eigenfrequency), the
denominator coefficient is the finite value 0, the `isfinite` guard passes,
no error is raised, and the returned tensor entry is `-inf`. -/
theorem acoustic_mass_resonance_guard_passes_inf :
    (getCoefsFV [4] 2).2 = [FV.num 0]
    ∧ (getCoefsFV [4] 2).2.all FV.isFinite = true
    ∧ evaluateFV [4] [[1]] 1 1 2 = .ok [[FV.ninf]]
    ∧ FV.isFinite FV.ninf = false := by
  have hde : (getCoefsFV [4] 2).2 = [FV.num 0] := by
    show [FV.sub (.num ((2 : ℚ) * 2)) (.num 4)] = [FV.num 0]
    rw [FV.sub]
    norm_num
  have hall : (getCoefsFV [4] 2).2.all FV.isFinite = true := by
    rw [hde]
    rfl
  refine ⟨hde, hall, ?_, rfl⟩
  unfold evaluateFV
  rw [if_neg (by rw [hde]; simp [FV.isFinite])]
  have hfm : fmassEntryFV [4] [[1]] 2 0 0 = FV.pinf := by
    unfold fmassEntryFV
    rw [hde]
    simp only [getCoefsFV, List.zip_cons_cons, List.zip_nil_right, List.map_cons,
      List.map_nil, List.getD_cons_zero]
    rw [FV.div, if_pos rfl, if_pos (by norm_num : (0 : ℚ) < 2 * 2)]
    rw [FV.mul, if_pos (by norm_num : (0 : ℚ) < 1 * 1)]
    rfl
  have hrow : List.range ([(1 : ℚ)].length) = [0] := rfl
  simp only [List.headD_cons, hrow, List.map_cons, List.map_nil]
  rw [if_pos trivial, if_pos (le_refl 0), hfm]
  rw [FV.div, if_pos (by norm_num : (0 : ℚ) ≤ 1)]
  rw [FV.sub]

/-! ### Eigenmomenta thresholding (coefs_phononic.py lines 619-637)

`mag = norm_l2_along_axis(eigenmomenta)` comes from `sfepy.linalg`, outside
this repository's staged sources; the embedded thresholding takes the row-norm
vector `mag` as input, exactly the quantity the claim specifies.  -/

/-- The `nm.max` reduction over a (nonempty) vector. -/
def listMax (l : List ℚ) : ℚ := l.foldl max (l.headD 0)

/-- Embedding of the thresholding tail of `Eigenmomenta.__call__`
(lines 623-637): the tolerance, the validity mask
`nm.where(mag < tol, False, True)`, the zeroing of invalid rows and the count
of zeroed rows. -/
def thresholdEigenmomenta (emom : List (List ℚ)) (mag : List ℚ) (threshold : ℚ)
    (thresholdIsRelative : Bool) : List (List ℚ) × List Bool × ℕ :=
  let tol := if thresholdIsRelative then threshold * listMax mag else threshold
  let valid := mag.map (fun m => if m < tol then false else true)
  let zeroed := List.zipWith
    (fun (row : List ℚ) (v : Bool) => if v then row else row.map (fun _ => (0 : ℚ)))
    emom valid
  (zeroed, valid, (valid.filter (fun v => v = false)).length)

/-- Claim C8: with row norms `[0.01, 5.0, 0.02]` and relative threshold 0.1,
the mask is `[False, True, False]`, both invalid rows are zeroed and
`n_zeroed = 2`. -/
theorem eigenmomenta_threshold_mask (r0 r1 r2 : List ℚ) :
    thresholdEigenmomenta [r0, r1, r2] [1 / 100, 5, 1 / 50] (1 / 10) true
      = ([r0.map (fun _ => 0), r1, r2.map (fun _ => 0)], [false, true, false], 2) := by
  have hmax : listMax [1 / 100, 5, 1 / 50] = 5 := by
    unfold listMax
    rw [List.headD_cons, List.foldl_cons, List.foldl_cons, List.foldl_cons,
      List.foldl_nil, max_self]
    rw [max_eq_right (by norm_num : (1 : ℚ) / 100 ≤ 5)]
    rw [max_eq_left (by norm_num : (1 : ℚ) / 50 ≤ 5)]
  unfold thresholdEigenmomenta
  rw [hmax]
  rw [if_pos rfl]
  rw [show ((1 : ℚ) / 10 * 5) = 1 / 2 by norm_num]
  simp only [List.map_cons, List.map_nil]
  rw [if_pos (by norm_num : (1 : ℚ) / 100 < 1 / 2)]
  rw [if_neg (by norm_num : ¬ ((5 : ℚ) < 1 / 2))]
  rw [if_pos (by norm_num : (1 : ℚ) / 50 < 1 / 2)]
  rfl

/-! ### DensityVolumeInfo (coefs_phononic.py lines 512-554)

The loop accumulates `Σ vol·density` and `Σ vol` over the regions (embedded
as the list of `(volume, density)` pairs the configuration lookups produce),
then asserts `abs(total_volume - true_volume) / true_volume < 1e-14` and
divides the accumulated density by the supplied `true_volume`. -/

/-- Embedding of `DensityVolumeInfo.__call__`: returns
`(average_density, total_volume)` or the assertion failure. -/
def densityVolumeInfo (regions : List (ℚ × ℚ)) (trueVolume : ℚ) :
    Except String (ℚ × ℚ) :=
  let averageAcc := (regions.map (fun p => p.1 * p.2)).sum
  let totalVolume := (regions.map (fun p => p.1)).sum
  if |totalVolume - trueVolume| / trueVolume < 1 / 10 ^ 14 then
    .ok (averageAcc / trueVolume, totalVolume)
  else
    .error "assertion failed: total volume deviates from the supplied volume"

/-- Counterexample for C9: a total volume deviating by exactly `1e-14`
relative (not more) still fails the strict `< 1e-14` assertion. -/
theorem density_volume_boundary_cex :
    densityVolumeInfo [(1 + 1 / 10 ^ 14, 1)] 1
      = .error "assertion failed: total volume deviates from the supplied volume"
    ∧ ¬ (1 / 10 ^ 14
        < |(([((1 : ℚ) + 1 / 10 ^ 14, (1 : ℚ))].map (fun p => p.1)).sum - 1)| / 1) := by
  have hsum : (([((1 : ℚ) + 1 / 10 ^ 14, (1 : ℚ))].map (fun p => p.1)).sum - 1)
      = 1 / 10 ^ 14 := by
    simp only [List.map_cons, List.map_nil, List.sum_cons, List.sum_nil]
    ring
  constructor
  · unfold densityVolumeInfo
    rw [if_neg (by
      rw [hsum, abs_of_nonneg (by norm_num : (0 : ℚ) ≤ 1 / 10 ^ 14)]
      norm_num)]
  · rw [hsum, abs_of_nonneg (by norm_num : (0 : ℚ) ≤ 1 / 10 ^ 14)]
    norm_num

/-- Claim C9 as amended: the consistency error fires exactly when the
relative deviation is at least `1e-14` (the assert is strict), and the
specification's example instances behave as claimed: supplied total 5 gives
average density 16 and total volume 5, supplied total 5.001 fails. -/
theorem density_volume_consistency (regions : List (ℚ × ℚ)) (trueVolume : ℚ) :
    ((∃ msg, densityVolumeInfo regions trueVolume = .error msg)
      ↔ ¬ (|(regions.map (fun p => p.1)).sum - trueVolume| / trueVolume
            < 1 / 10 ^ 14))
    ∧ densityVolumeInfo [(2, 10), (3, 20)] 5 = .ok (16, 5)
    ∧ (∃ msg, densityVolumeInfo [(2, 10), (3, 20)] (5001 / 1000) = .error msg) := by
  refine ⟨⟨?_, ?_⟩, ?_, ?_⟩
  · rintro ⟨msg, hmsg⟩ hcond
    unfold densityVolumeInfo at hmsg
    rw [if_pos hcond] at hmsg
    exact Except.noConfusion hmsg
  · intro hcond
    refine ⟨"assertion failed: total volume deviates from the supplied volume", ?_⟩
    unfold densityVolumeInfo
    rw [if_neg hcond]
  · unfold densityVolumeInfo
    simp only [List.map_cons, List.map_nil, List.sum_cons, List.sum_nil]
    rw [if_pos (by norm_num)]
    norm_num
  · refine ⟨"assertion failed: total volume deviates from the supplied volume", ?_⟩
    unfold densityVolumeInfo
    simp only [List.map_cons, List.map_nil, List.sum_cons, List.sum_nil]
    rw [if_neg (by
      rw [show ((2 : ℚ) + (3 + 0) - 5001 / 1000) = -(1 / 1000) by norm_num]
      rw [abs_neg, abs_of_nonneg (by norm_num : (0 : ℚ) ≤ 1 / 1000)]
      norm_num)]

end Phononic
